import Mathlib

/-!
Verification of the data_extractor repository: three near-identical scripts
(`short.py`, `long.py`, `mcqs.py`) that parse locally stored HTML files of
exam questions and append extracted rows to CSV files.

The development shallowly embeds the scripts' logic:

* Python string helpers (`str.strip`, `str.split(".", 2)`, `os.path.basename`,
  `os.path.splitext`, `str.upper`, `str.replace`) are translated to Lean
  functions over `String` / `List Char`.  Python's notion of whitespace
  (`str.isspace`, used by `str.strip()` and `str.split()`) is reproduced by
  `pyIsSpace`.  Case mapping is modelled for ASCII (the only characters the
  scripts' letter labels and patterns rely on).
* The parsed DOM that BeautifulSoup hands to the extraction functions is
  modelled by the mutual inductives `Node` / `NodeList`.  CSS selection
  (`select`, `select_one`, `find`) is translated into explicit preorder
  traversals of that tree; combinator selectors carry the "has a matching
  ancestor" flag downwards.  Ancestors outside the selected subtree (which a
  selector engine could in principle consult) are not representable here;
  within a subtree the traversals follow soupsieve's document-order semantics.
* `extract_questions` (short.py), `extract_long_questions` (long.py) and
  `extract_mcqs` (mcqs.py) are translated function by function from the source.
* The CSV append performed by each script's `main` is modelled by
  `csvAppendRun` over the output file's lines: the header is written when the
  file is missing or empty, then the data rows are appended.
-/

/-! ## Python string primitives -/

/-- Characters for which Python's `str.isspace()` returns `True`; this is the
set of characters removed by `str.strip()` and separating words in
`str.split()`. -/
def pyIsSpace (c : Char) : Bool :=
  c ∈ ([' ', '\t', '\n', '\r', '\x0b', '\x0c',
        '\x1c', '\x1d', '\x1e', '\x1f', '\x85', '\xa0',
        '\u1680', '\u2000', '\u2001', '\u2002', '\u2003', '\u2004', '\u2005',
        '\u2006', '\u2007', '\u2008', '\u2009', '\u200a', '\u2028', '\u2029',
        '\u202f', '\u205f', '\u3000'] : List Char)

/-- Python `s.strip()`: remove leading and trailing whitespace. -/
def pyStrip (s : String) : String :=
  String.mk (((s.data.dropWhile pyIsSpace).reverse.dropWhile pyIsSpace).reverse)

/-- Python `s.strip("()")`: remove leading and trailing parentheses. -/
def stripParens (s : String) : String :=
  String.mk (((s.data.dropWhile (fun c => c = '(' ∨ c = ')')).reverse.dropWhile
      (fun c => c = '(' ∨ c = ')')).reverse)

/-- Python `s.upper()`, modelled for ASCII letters. -/
def pyUpper (s : String) : String :=
  String.mk (s.data.map Char.toUpper)

/-- Python `s.replace("\xa0", " ")`: rewrite every non-breaking space to an
ordinary space. -/
def replaceNbsp (s : String) : String :=
  String.mk (s.data.map (fun c => if c = '\xa0' then ' ' else c))

/-- One character of Python `s.replace("\\", "/")`. -/
def replSlash (c : Char) : Char :=
  if c = '\\' then '/' else c

/-- Python `s.replace("\\", "/")` as applied to the folder path before the
chapter search. -/
def replaceBackslash (s : String) : String :=
  String.mk (s.data.map replSlash)

/-- Python `s.split()` (no argument): the maximal whitespace-free words of the
string, used by BeautifulSoup to split a `class` attribute into classes.
`acc` accumulates the current word in reverse. -/
def pyWordsAux (acc : List Char) : List Char → List String
  | [] => if acc = [] then [] else [String.mk acc.reverse]
  | c :: cs =>
    if pyIsSpace c then
      if acc = [] then pyWordsAux [] cs
      else String.mk acc.reverse :: pyWordsAux [] cs
    else pyWordsAux (c :: acc) cs

/-- Python `s.split()` on the characters of `s`. -/
def pyWords (s : String) : List String :=
  pyWordsAux [] s.data

/-- Python `sep.join(parts)` for `sep = "."`, as used by
`".".join(parts[:2])`. -/
def joinDot : List String → String
  | [] => ""
  | [s] => s
  | s :: rest => s ++ "." ++ joinDot rest

/-! ## Filename helpers: `os.path.basename`, `os.path.splitext`,
`str.split(".", 2)` -/

/-- Python `os.path.basename` (posix): the suffix after the last `/`. -/
def basename (s : String) : String :=
  String.mk ((s.data.reverse.takeWhile (fun c => ¬ (c = '/'))).reverse)

/-- The stem part of Python `os.path.splitext` on a basename: split off the
extension at the last dot, unless the characters before that dot are all dots
(so `.bashrc` keeps its name).  `genericpath._splitext` scans for a non-dot
character before the last dot; equivalently, after the leading run of dots
there must still be a dot. -/
def splitextStem (b : String) : String :=
  let l := b.data
  let rest := l.drop (l.takeWhile (fun c => c = '.')).length
  if '.' ∈ rest then
    String.mk (((l.reverse.dropWhile (fun c => ¬ (c = '.'))).tail).reverse)
  else b

/-- Split at the first dot: returns the prefix before it and, when a dot
exists, the remainder after it. -/
def splitFirstDot : List Char → List Char × Option (List Char)
  | [] => ([], none)
  | c :: cs =>
    if c = '.' then ([], some cs)
    else
      let r := splitFirstDot cs
      (c :: r.1, r.2)

/-- Second stage of `s.split(".", 2)`: after the second split the remainder
is kept whole. -/
def splitDotStep2 (p1 : List Char) : List Char × Option (List Char) → List (List Char)
  | (p2, none) => [p1, p2]
  | (p2, some r2) => [p1, p2, r2]

/-- First stage of `s.split(".", 2)`. -/
def splitDotStep1 : List Char × Option (List Char) → List (List Char)
  | (p1, none) => [p1]
  | (p1, some r1) => splitDotStep2 p1 (splitFirstDot r1)

/-- Python `s.split(".", 2)`: at most two splits, so at most three parts. -/
def splitDotMax2 (l : List Char) : List (List Char) :=
  splitDotStep1 (splitFirstDot l)

/-- Translation of `parse_section_parts` (defined identically in `short.py`,
`long.py` and `mcqs.py`): derive `(section_no, section_name)` from a filename.
The stem of the basename is split on `.` into at most three parts; with at
least two parts the section number joins the first two and the section name is
the third part when present, otherwise the section number is empty and the
whole stem is the name. -/
def parse_section_parts (filename : String) : String × String :=
  let base := splitextStem (basename filename)
  let parts := (splitDotMax2 base.data).map String.mk
  if 2 ≤ parts.length then
    (joinDot (parts.take 2), if parts.length = 3 then parts.getD 2 "" else "")
  else
    ("", base)

/-! ## Chapter resolution: `re.search(r"(chapter\d+)", path, re.IGNORECASE)` -/

/-- The lowercase letters of the literal `chapter`. -/
def lowerChapter : List Char :=
  ['c', 'h', 'a', 'p', 't', 'e', 'r']

/-- The ranges of Unicode general category Nd (decimal digits), the set of
characters CPython's `\d` matches for a `str` pattern compiled without
`re.ASCII` (Unicode 14.0.0). -/
def ndDigitRanges : List (Nat × Nat) :=
  [(0x30, 0x39), (0x660, 0x669), (0x6f0, 0x6f9), (0x7c0, 0x7c9),
   (0x966, 0x96f), (0x9e6, 0x9ef), (0xa66, 0xa6f), (0xae6, 0xaef),
   (0xb66, 0xb6f), (0xbe6, 0xbef), (0xc66, 0xc6f), (0xce6, 0xcef),
   (0xd66, 0xd6f), (0xde6, 0xdef), (0xe50, 0xe59), (0xed0, 0xed9),
   (0xf20, 0xf29), (0x1040, 0x1049), (0x1090, 0x1099), (0x17e0, 0x17e9),
   (0x1810, 0x1819), (0x1946, 0x194f), (0x19d0, 0x19d9), (0x1a80, 0x1a89),
   (0x1a90, 0x1a99), (0x1b50, 0x1b59), (0x1bb0, 0x1bb9), (0x1c40, 0x1c49),
   (0x1c50, 0x1c59), (0xa620, 0xa629), (0xa8d0, 0xa8d9), (0xa900, 0xa909),
   (0xa9d0, 0xa9d9), (0xa9f0, 0xa9f9), (0xaa50, 0xaa59), (0xabf0, 0xabf9),
   (0xff10, 0xff19), (0x104a0, 0x104a9), (0x10d30, 0x10d39), (0x11066, 0x1106f),
   (0x110f0, 0x110f9), (0x11136, 0x1113f), (0x111d0, 0x111d9), (0x112f0, 0x112f9),
   (0x11450, 0x11459), (0x114d0, 0x114d9), (0x11650, 0x11659), (0x116c0, 0x116c9),
   (0x11730, 0x11739), (0x118e0, 0x118e9), (0x11950, 0x11959), (0x11c50, 0x11c59),
   (0x11d50, 0x11d59), (0x11da0, 0x11da9), (0x16a60, 0x16a69), (0x16ac0, 0x16ac9),
   (0x16b50, 0x16b59), (0x1d7ce, 0x1d7ff), (0x1e140, 0x1e149), (0x1e2f0, 0x1e2f9),
   (0x1e950, 0x1e959), (0x1fbf0, 0x1fbf9)]

/-- Python `\d` on one character: membership in a Unicode Nd range. -/
def pyIsDecimalDigit (c : Char) : Bool :=
  ndDigitRanges.any (fun r => r.1 ≤ c.toNat ∧ c.toNat ≤ r.2)

/-- Attempt to match `chapter\d+` (case-insensitive, greedy run of Unicode
decimal digits) at the head of `l`; on success return the matched characters
in their original case. -/
def matchChapterAt (l : List Char) : Option (List Char) :=
  if (l.take 7).map Char.toLower = lowerChapter then
    let ds := (l.drop 7).takeWhile pyIsDecimalDigit
    if ds = [] then none else some (l.take 7 ++ ds)
  else none

/-- Python `re.search`: scan positions left to right for the first match of
`chapter\d+`. -/
def searchChapter : List Char → Option (List Char)
  | [] => none
  | c :: cs =>
    match matchChapterAt (c :: cs) with
    | some m => some m
    | none => searchChapter cs

/-- Translation of the chapter-number resolution in each script's `main`:
`m = re.search(r"(chapter\d+)", folder.replace("\\", "/"), re.IGNORECASE)`;
`chapter_no = m.group(1) if m else ""`. -/
def chapterFromPath (p : String) : String :=
  match searchChapter (replaceBackslash p).data with
  | some m => String.mk m
  | none => ""

/-- The decompositions of a path that the spec's chapter claim quantifies
over: `m` case-insensitively spells `chapter` followed by at least one
decimal digit (Unicode Nd, as Python's `\d`). -/
def isChapterMatch (m : List Char) : Prop :=
  (m.take 7).map Char.toLower = lowerChapter ∧ m.drop 7 ≠ [] ∧
    ∀ c ∈ m.drop 7, pyIsDecimalDigit c

/-! ## The DOM model -/

mutual
/-- A parsed DOM node: an element with tag, attributes and children, or a
text node.  This is the tree BeautifulSoup produces from the markup; the
extraction functions are translated against it. -/
inductive Node where
  | elem (tag : String) (attrs : List (String × String)) (children : NodeList)
  | text (s : String)
/-- Children of an element, as a specialised list so that the traversals are
structurally recursive. -/
inductive NodeList where
  | nil
  | cons (n : Node) (ns : NodeList)
end

/-- Build a `NodeList` from a `List Node` (notation-free convenience for
concrete documents). -/
def nlOf : List Node → NodeList
  | [] => NodeList.nil
  | n :: ns => NodeList.cons n (nlOf ns)

/-- First value of the attribute named `key` (the parser keeps the first
occurrence of a duplicated attribute). -/
def attrsGet : List (String × String) → String → Option String
  | [], _ => none
  | (k, v) :: rest, key => if k = key then some v else attrsGet rest key

/-- Python `tag.get(key)` on an element; `None` for missing attributes. -/
def Node.attr : Node → String → Option String
  | .text _, _ => none
  | .elem _ attrs _, key => attrsGet attrs key

/-- Python `tag.get(key, dflt)`. -/
def Node.attrD (n : Node) (key dflt : String) : String :=
  (Node.attr n key).getD dflt

/-- The classes of an element: BeautifulSoup splits the `class` attribute on
whitespace into a list. -/
def classesOfAttrs (attrs : List (String × String)) : List String :=
  match attrsGet attrs ("class") with
  | none => []
  | some v => pyWords v

/-- Python `tag.get("class") or []` membership test lives on this list. -/
def Node.classes : Node → List String
  | .text _ => []
  | .elem _ attrs _ => classesOfAttrs attrs

/-- Whether an attribute list carries the given class. -/
def hasClassAttrs (attrs : List (String × String)) (cls : String) : Bool :=
  cls ∈ classesOfAttrs attrs

mutual
/-- All text-node strings below a node, in document order (BeautifulSoup's
`tag.strings`). -/
def Node.strings : Node → List String
  | .text s => [s]
  | .elem _ _ cs => NodeList.strings cs
def NodeList.strings : NodeList → List String
  | .nil => []
  | .cons n ns => Node.strings n ++ NodeList.strings ns
end

/-- Python `tag.get_text()` (no separator, no strip): concatenation of all
text-node strings. -/
def getTextRaw (n : Node) : String :=
  String.join (Node.strings n)

/-- Python `" ".join(parts)` (the separator form of `get_text`). -/
def joinSpace : List String → String
  | [] => ""
  | [s] => s
  | s :: rest => s ++ " " ++ joinSpace rest

/-- Python `tag.get_text(" ", strip=True)`: each string stripped, empty ones
dropped, the rest joined with single spaces. -/
def getTextSep (n : Node) : String :=
  joinSpace (((Node.strings n).map pyStrip).filter (fun s => s ≠ ""))

mutual
/-- Matches of `soup.select("#chooseQuestionsByChapterIDs .TableHover")` in
the subtree of a node, in document order.  `flag` records whether some strict
ancestor has the container id. -/
def Node.rowsUnder (flag : Bool) : Node → List Node
  | .text _ => []
  | .elem t attrs cs =>
    (if flag ∧ hasClassAttrs attrs ("TableHover") then [Node.elem t attrs cs] else []) ++
      NodeList.rowsUnder (flag ∨ attrsGet attrs ("id") = some ("chooseQuestionsByChapterIDs")) cs
def NodeList.rowsUnder (flag : Bool) : NodeList → List Node
  | .nil => []
  | .cons n ns => Node.rowsUnder flag n ++ NodeList.rowsUnder flag ns
end

/-- The question rows of a document: translation of
`soup.select("#chooseQuestionsByChapterIDs .TableHover")`, identical in all
three scripts. -/
def selectRows (doc : Node) : List Node :=
  Node.rowsUnder false doc

mutual
/-- Elements with the given tag that have an ancestor of class `cls` inside
the scanned subtree, in document order (the compound selector
`".<cls> <tag>"`). -/
def Node.underClassTag (cls tag : String) (flag : Bool) : Node → List Node
  | .text _ => []
  | .elem t attrs cs =>
    (if flag ∧ t = tag then [Node.elem t attrs cs] else []) ++
      NodeList.underClassTag cls tag (flag ∨ hasClassAttrs attrs cls) cs
def NodeList.underClassTag (cls tag : String) (flag : Bool) : NodeList → List Node
  | .nil => []
  | .cons n ns =>
    Node.underClassTag cls tag flag n ++ NodeList.underClassTag cls tag flag ns
end

/-- Python `row.select_one(".<cls> <tag>")`: first matching descendant of
`row` in document order (`row` itself can only serve as the class-bearing
ancestor, never as the match). -/
def selectOneClassTag (cls tag : String) (row : Node) : Option Node :=
  match row with
  | .text _ => none
  | .elem _ attrs cs =>
    (NodeList.underClassTag cls tag (hasClassAttrs attrs cls) cs).head?

mutual
/-- Descendants matching `"ul > li"`: `li` elements whose parent is a `ul`,
in document order.  `parentIsUl` tells whether the node's parent is a `ul`. -/
def Node.lisIn (parentIsUl : Bool) : Node → List Node
  | .text _ => []
  | .elem t attrs cs =>
    (if parentIsUl ∧ t = ("li") then [Node.elem t attrs cs] else []) ++
      NodeList.lisIn (t = ("ul")) cs
def NodeList.lisIn (parentIsUl : Bool) : NodeList → List Node
  | .nil => []
  | .cons n ns => Node.lisIn parentIsUl n ++ NodeList.lisIn parentIsUl ns
end

/-- Python `row.select("ul > li")`: the option list items of a row. -/
def selectUlLi (row : Node) : List Node :=
  match row with
  | .text _ => []
  | .elem t _ cs => NodeList.lisIn (t = ("ul")) cs

mutual
/-- Descendant elements with the given tag, in document order. -/
def Node.tagsIn (tag : String) : Node → List Node
  | .text _ => []
  | .elem t attrs cs =>
    (if t = tag then [Node.elem t attrs cs] else []) ++ NodeList.tagsIn tag cs
def NodeList.tagsIn (tag : String) : NodeList → List Node
  | .nil => []
  | .cons n ns => Node.tagsIn tag n ++ NodeList.tagsIn tag ns
end

/-- Python `tag.find(name)`: first descendant element with the given tag. -/
def findTag (tag : String) (n : Node) : Option Node :=
  match n with
  | .text _ => none
  | .elem _ _ cs => (NodeList.tagsIn tag cs).head?

/-! ## Plain-form extraction (`short.py` / `long.py`) -/

/-- A plain question record `{id, english, urdu}`. -/
structure PlainRecord where
  id : Option String
  english : String
  urdu : String
deriving Repr, DecidableEq

/-- One row of `extract_questions` (short.py): `qid = row.get("id")`;
`eng = (eng_p.get_text(" ", strip=True) if eng_p else "").replace("\xa0", " ")`
and symmetrically for Urdu. -/
def shortRow (row : Node) : PlainRecord :=
  ⟨Node.attr row ("id"),
   replaceNbsp (match selectOneClassTag ("EnglishDiv") ("p") row with
     | some p => getTextSep p
     | none => ""),
   replaceNbsp (match selectOneClassTag ("UrduDiv") ("p") row with
     | some p => getTextSep p
     | none => "")⟩

/-- Translation of `extract_questions` from `short.py`. -/
def extract_questions (doc : Node) : List PlainRecord :=
  (selectRows doc).map shortRow

/-- One row of `extract_long_questions` (long.py); the source is literally
identical to the row logic of `short.py`. -/
def longRow (row : Node) : PlainRecord :=
  ⟨Node.attr row ("id"),
   replaceNbsp (match selectOneClassTag ("EnglishDiv") ("p") row with
     | some p => getTextSep p
     | none => ""),
   replaceNbsp (match selectOneClassTag ("UrduDiv") ("p") row with
     | some p => getTextSep p
     | none => "")⟩

/-- Translation of `extract_long_questions` from `long.py`. -/
def extract_long_questions (doc : Node) : List PlainRecord :=
  (selectRows doc).map longRow

/-! ## Multiple-choice extraction (`mcqs.py`) -/

/-- Translation of `_clean` from `mcqs.py`:
`(text or "").replace("\xa0", " ").strip()`. -/
def cleanText (s : String) : String :=
  pyStrip (replaceNbsp s)

/-- The option label of a list item, from `mcqs.py`:
`letter_span = li.find("span")`; when the span exists and has text,
`letter = letter_span.get_text().strip().strip("()").upper()`. -/
def letterOf (li : Node) : String :=
  match findTag ("span") li with
  | none => ""
  | some sp =>
    if getTextRaw sp = "" then ""
    else pyUpper (stripParens (pyStrip (getTextRaw sp)))

/-- English option text of a list item:
`_clean(en_p.get_text(" ", strip=True) if en_p else "")` for
`en_p = li.select_one(".En p")`. -/
def enTextOf (li : Node) : String :=
  cleanText (match selectOneClassTag ("En") ("p") li with
    | some p => getTextSep p
    | none => "")

/-- Urdu option text of a list item, from `li.select_one(".Ur p")`. -/
def urTextOf (li : Node) : String :=
  cleanText (match selectOneClassTag ("Ur") ("p") li with
    | some p => getTextSep p
    | none => "")

/-- Whether the item carries the marker class:
`"correctAnswer" in (li.get("class") or [])`. -/
def isCorrectMarked (li : Node) : Bool :=
  ("correctAnswer" : String) ∈ Node.classes li

/-- The `opts` dict of `extract_mcqs`, with its four fixed slots. -/
structure Opts where
  a_en : String
  a_ur : String
  b_en : String
  b_ur : String
  c_en : String
  c_ur : String
  d_en : String
  d_ur : String
deriving Repr, DecidableEq

/-- The initial `opts` value: every slot the empty string. -/
def initOpts : Opts :=
  ⟨"", "", "", "", "", "", "", ""⟩

/-- `if letter in opts: opts[letter]["en"], opts[letter]["ur"] = en, ur` —
a letter outside the four slots leaves `opts` unchanged. -/
def setOpt (o : Opts) (letter en ur : String) : Opts :=
  if letter = "A" then ⟨en, ur, o.b_en, o.b_ur, o.c_en, o.c_ur, o.d_en, o.d_ur⟩
  else if letter = "B" then ⟨o.a_en, o.a_ur, en, ur, o.c_en, o.c_ur, o.d_en, o.d_ur⟩
  else if letter = "C" then ⟨o.a_en, o.a_ur, o.b_en, o.b_ur, en, ur, o.d_en, o.d_ur⟩
  else if letter = "D" then ⟨o.a_en, o.a_ur, o.b_en, o.b_ur, o.c_en, o.c_ur, en, ur⟩
  else o

/-- Read a slot of `opts` by letter (the record fields the final dict copies
out). -/
def getOpt (o : Opts) (letter : String) : String × String :=
  if letter = "A" then (o.a_en, o.a_ur)
  else if letter = "B" then (o.b_en, o.b_ur)
  else if letter = "C" then (o.c_en, o.c_ur)
  else if letter = "D" then (o.d_en, o.d_ur)
  else ("", "")

/-- The tail of a match of `-\(([A-D])\)` (case-insensitive): a parenthesised
letter `A`–`D` of either case right at the head; the captured letter is
returned uppercased (`m.group(1).upper()`). -/
def fallbackHere : List Char → Option String
  | '(' :: d :: ')' :: _ =>
    if d = 'A' ∨ d = 'B' ∨ d = 'C' ∨ d = 'D' ∨
        d = 'a' ∨ d = 'b' ∨ d = 'c' ∨ d = 'd' then
      some (String.mk [d.toUpper])
    else none
  | _ => none

/-- The regex fallback `re.search(r"-\(([A-D])\)", tc, re.IGNORECASE)`: scan
left to right for the first occurrence of `-(<letter>)`. -/
def findFallback : List Char → Option String
  | [] => none
  | c :: cs =>
    match (if c = '-' then fallbackHere cs else none) with
    | some s => some s
    | none => findFallback cs

/-- The correct-answer update of `extract_mcqs` for one list item: when the
item is marked, prefer the span's letter, otherwise parse the `thiscorrect`
attribute; when neither yields a letter the current value is kept. -/
def correctUpdate (cur : String) (li : Node) : String :=
  if isCorrectMarked li then
    if letterOf li ≠ "" then letterOf li
    else
      match findFallback (Node.attrD li ("thiscorrect") "").data with
      | some u => u
      | none => cur
  else cur

/-- The option-slot update of `extract_mcqs` for one list item. -/
def procOpt (o : Opts) (li : Node) : Opts :=
  setOpt o (letterOf li) (enTextOf li) (urTextOf li)

/-- One iteration of the `for li in row.select("ul > li")` loop: the slot
update and the correct-answer update act on their own components of the
state. -/
def procLi (st : Opts × String) (li : Node) : Opts × String :=
  (procOpt st.1 li, correctUpdate st.2 li)

/-- A multiple-choice record as returned by `extract_mcqs`. -/
structure McqRecord where
  id : Option String
  question_en : String
  question_ur : String
  option_a_en : String
  option_a_ur : String
  option_b_en : String
  option_b_ur : String
  option_c_en : String
  option_c_ur : String
  option_d_en : String
  option_d_ur : String
  correct_option : String
deriving Repr, DecidableEq

/-- One row of `extract_mcqs`: question texts via `_clean` of the
`.EnglishDiv p` / `.UrduDiv p` texts, the option loop folded over
`row.select("ul > li")` starting from empty slots and an empty correct
letter. -/
def mcqRow (row : Node) : McqRecord :=
  let st := (selectUlLi row).foldl procLi (initOpts, "")
  ⟨Node.attr row ("id"),
   cleanText (match selectOneClassTag ("EnglishDiv") ("p") row with
     | some p => getTextSep p
     | none => ""),
   cleanText (match selectOneClassTag ("UrduDiv") ("p") row with
     | some p => getTextSep p
     | none => ""),
   st.1.a_en, st.1.a_ur, st.1.b_en, st.1.b_ur,
   st.1.c_en, st.1.c_ur, st.1.d_en, st.1.d_ur,
   st.2⟩

/-- Translation of `extract_mcqs` from `mcqs.py`. -/
def extract_mcqs (doc : Node) : List McqRecord :=
  (selectRows doc).map mcqRow

/-! ## Spec-side readers and the CSV append model -/

/-- Read the option slot named by a letter out of a returned record (the
spec's "option slot named by its label letter"). -/
def optionSlot (r : McqRecord) (letter : String) : String × String :=
  if letter = "A" then (r.option_a_en, r.option_a_ur)
  else if letter = "B" then (r.option_b_en, r.option_b_ur)
  else if letter = "C" then (r.option_c_en, r.option_c_ur)
  else if letter = "D" then (r.option_d_en, r.option_d_ur)
  else ("", "")

/-- The letter a single list item contributes to the correct answer, per the
spec's rule: a marked item yields its parsed label letter when non-empty,
otherwise the letter parsed from the fallback attribute; an unmarked item
yields nothing. -/
def markedYield (li : Node) : Option String :=
  if isCorrectMarked li then
    if letterOf li ≠ "" then some (letterOf li)
    else findFallback (Node.attrD li ("thiscorrect") "").data
  else none

/-- A string containing no non-breaking space. -/
def nbspFree (s : String) : Prop :=
  ('\xa0' : Char) ∉ s.data

/-- The header line the plain-form scripts write
(`",".join(fieldnames)` for short.py / long.py). -/
def csvHeaderPlain : String :=
  "chapter_no,section_no,section_name,id,english,urdu"

/-- The output-file effect of one run of a script's `main`: `existing` is the
output file's lines (`none` when the file does not exist).  The script opens
the file in append mode, writes the header when the file was missing or
empty (`if not file_exists or os.path.getsize(csv_path) == 0`), then appends
one line per extracted record.  `dataRows` are the data lines of the run,
which are a pure function of the input directory and book name. -/
def csvAppendRun (header : String) (existing : Option (List String))
    (dataRows : List String) : List String :=
  let cur := existing.getD []
  (if existing = none ∨ cur = [] then cur ++ [header] else cur) ++ dataRows

/-! ## Concrete documents used by witnesses and counterexamples -/

/-- A multiple-choice list item with the given extra class, label text and
texts. -/
def mkLi (cls lbl en ur : String) : Node :=
  .elem ("li") [("class", cls)] (nlOf [
    .elem ("span") [] (nlOf [.text lbl]),
    .elem ("div") [("class", "En")] (nlOf [.elem ("p") [] (nlOf [.text en])]),
    .elem ("div") [("class", "Ur")] (nlOf [.elem ("p") [] (nlOf [.text ur])])])

/-- A question row with the given id, question texts and list items. -/
def mkRow (qid en ur : String) (lis : List Node) : Node :=
  .elem ("div") [("class", "TableHover"), ("id", qid)] (nlOf [
    .elem ("div") [("class", "EnglishDiv")] (nlOf [
      .elem ("p") [] (nlOf [.text en])]),
    .elem ("div") [("class", "UrduDiv")] (nlOf [
      .elem ("p") [] (nlOf [.text ur])]),
    .elem ("ul") [] (nlOf lis)])

/-- Wrap rows in the container the selectors look for. -/
def mkDoc (rows : List Node) : Node :=
  .elem ("html") [] (nlOf [
    .elem ("div") [("id", "chooseQuestionsByChapterIDs")] (nlOf rows)])

def c1liB : Node := mkLi "opt" "(B)" "beta" "ب"
def c1liD : Node := mkLi "opt correctAnswer" "(D)" "delta" "د"
def c1liA : Node := mkLi "opt" "(A)" "alpha" "ا"
def c1liC : Node := mkLi "opt" "(C)" "gamma" "ج"

/-- C1 witness row: labels appear in document order B, D, A, C and the item
labeled D carries the marker class. -/
def c1row : Node := mkRow "Q1" "pick one" "ایک" [c1liB, c1liD, c1liA, c1liC]

def c1doc : Node := mkDoc [c1row]

/-- C2 counterexample: the marked item's span reads `(X)`, so the stored
correct letter is `X`. -/
def c2li : Node := mkLi "correctAnswer" "(X)" "ex" "س"

def c2row : Node := mkRow "Q2" "q" "س" [c2li]

def c2doc : Node := mkDoc [c2row]

/-- C2 witness row (for the amended claim): every label is one of the four
letters. -/
def c2rowGood : Node := mkRow "Q2g" "q" "س" [mkLi "correctAnswer" "(B)" "b" "ب"]

def c2docGood : Node := mkDoc [c2rowGood]

/-- C3 witness row: two marked items; the first yields `B` from its span, the
second is marked but yields no letter (empty span text, unusable fallback), so
the letter of the first survives. -/
def c3li1 : Node := mkLi "correctAnswer" "(B)" "b" "ب"

def c3li2 : Node :=
  .elem ("li") [("class", "correctAnswer"), ("thiscorrect", "nothing here")]
    (nlOf [.elem ("span") [] NodeList.nil])

def c3row : Node := mkRow "Q3" "q" "س" [c3li1, c3li2]

def c3doc : Node := mkDoc [c3row]

/-- C6 witness: a row with no `EnglishDiv` descendant and no `UrduDiv`
descendant at all. -/
def c6row : Node := .elem ("div") [("class", "TableHover"), ("id", "Q6")] NodeList.nil

def c6doc : Node := mkDoc [c6row]

/-- C7 counterexample: the marked item's label contains a non-breaking space
after the letter, which survives into `correct_option`. -/
def c7li : Node := mkLi "correctAnswer" "(X\xa0Y)" "x" "س"

def c7row : Node := mkRow "Q7" "q" "س" [c7li]

def c7doc : Node := mkDoc [c7row]

/-- C7 witness doc (for the amended claim): a row whose texts contain
non-breaking spaces. -/
def c7rowGood : Node := mkRow "Q7g" "a\xa0b" "\xa0س" [mkLi "opt" "(A)" "x\xa0y" "س\xa0"]

def c7docGood : Node := mkDoc [c7rowGood]

/-- C10 witness: two items both labeled `(A)`; the second one's texts must
win. -/
def c10li1 : Node := mkLi "opt" "(A)" "first" "اول"

def c10li2 : Node := mkLi "opt" "(A)" "second" "دوم"

def c10row : Node := mkRow "QX" "q" "س" [c10li1, c10li2]

def c10doc : Node := mkDoc [c10row]

/-! ## Predicates used by the claim statements -/

/-- The four letters that name option slots. -/
def isSlotLetter (l : String) : Prop :=
  l = "A" ∨ l = "B" ∨ l = "C" ∨ l = "D"

instance isSlotLetter.dec : DecidablePred isSlotLetter := by
  intro l
  unfold isSlotLetter
  exact inferInstance

/-- The invariant that all eight option slots are free of non-breaking
spaces. -/
def OptsClean (o : Opts) : Prop :=
  nbspFree o.a_en ∧ nbspFree o.a_ur ∧ nbspFree o.b_en ∧ nbspFree o.b_ur ∧
  nbspFree o.c_en ∧ nbspFree o.c_ur ∧ nbspFree o.d_en ∧ nbspFree o.d_ur

instance isChapterMatch.dec : DecidablePred isChapterMatch := by
  intro m
  unfold isChapterMatch
  exact inferInstance

/-! ## Helper lemmas -/


/-! ## Helper lemmas on the option-loop fold -/

theorem procLi_foldl (lis : List Node) (o : Opts) (c : String) :
    lis.foldl procLi (o, c) = (lis.foldl procOpt o, lis.foldl correctUpdate c) := by
  induction lis generalizing o c with
  | nil => rfl
  | cons li rest ih => exact ih (procOpt o li) (correctUpdate c li)

theorem correctUpdate_eq_markedYield (c : String) (li : Node) :
    correctUpdate c li = (markedYield li).getD c := by
  unfold correctUpdate markedYield
  split_ifs with h1 h2
  · rfl
  · cases hf : findFallback (Node.attrD li ("thiscorrect") "").data <;> simp [hf]
  · rfl

theorem foldl_correctUpdate_eq (lis : List Node) (c : String) :
    lis.foldl correctUpdate c = (lis.filterMap markedYield).getLastD c := by
  induction lis generalizing c with
  | nil => rfl
  | cons li rest ih =>
    rw [List.foldl_cons, List.filterMap_cons, correctUpdate_eq_markedYield]
    cases h : markedYield li with
    | none => simpa using ih c
    | some y =>
      simp only [Option.getD_some, List.getLastD_cons]
      exact ih y

theorem getOpt_setOpt_self (o : Opts) (en ur l : String) (hl : isSlotLetter l) :
    getOpt (setOpt o l en ur) l = (en, ur) := by
  rcases hl with rfl | rfl | rfl | rfl <;> rfl

theorem getOpt_setOpt_ne (o : Opts) (en ur l lp : String) (h : lp ≠ l)
    (hl : isSlotLetter l) :
    getOpt (setOpt o lp en ur) l = getOpt o l := by
  rcases hl with rfl | rfl | rfl | rfl <;>
    (unfold setOpt getOpt; split_ifs <;> simp_all)

theorem getOpt_foldl_not_mem (lis : List Node) (o : Opts) (l : String)
    (hl : isSlotLetter l) (h : ∀ li ∈ lis, letterOf li ≠ l) :
    getOpt (lis.foldl procOpt o) l = getOpt o l := by
  induction lis generalizing o with
  | nil => rfl
  | cons li rest ih =>
    rw [List.foldl_cons]
    rw [ih (procOpt o li) (fun x hx => h x (List.mem_cons_of_mem _ hx))]
    exact getOpt_setOpt_ne o _ _ l _ (h li (List.mem_cons_self _ _)) hl

theorem getOpt_foldl_last (pre post : List Node) (li : Node) (o : Opts)
    (hl : isSlotLetter (letterOf li))
    (hpost : ∀ x ∈ post, letterOf x ≠ letterOf li) :
    getOpt ((pre ++ li :: post).foldl procOpt o) (letterOf li) =
      (enTextOf li, urTextOf li) := by
  rw [List.foldl_append, List.foldl_cons]
  rw [getOpt_foldl_not_mem post _ _ hl hpost]
  exact getOpt_setOpt_self _ _ _ _ hl

theorem mcqRow_correct_option (row : Node) :
    (mcqRow row).correct_option =
      ((selectUlLi row).filterMap markedYield).getLastD "" := by
  show ((selectUlLi row).foldl procLi (initOpts, "")).2 = _
  rw [procLi_foldl]
  exact foldl_correctUpdate_eq _ _

theorem optionSlot_mcqRow (row : Node) (l : String) (hl : isSlotLetter l) :
    optionSlot (mcqRow row) l =
      getOpt ((selectUlLi row).foldl procOpt initOpts) l := by
  have h := procLi_foldl (selectUlLi row) initOpts ""
  rcases hl with rfl | rfl | rfl | rfl <;> simp [optionSlot, mcqRow, getOpt, h]

theorem fallbackHere_mem (cs : List Char) (s : String)
    (h : fallbackHere cs = some s) : isSlotLetter s := by
  unfold fallbackHere at h
  split at h
  · split_ifs at h with hd
    · rcases hd with rfl | rfl | rfl | rfl | rfl | rfl | rfl | rfl <;>
        simp_all [isSlotLetter]
  · simp at h

theorem findFallback_mem (l : List Char) (s : String)
    (h : findFallback l = some s) : isSlotLetter s := by
  induction l with
  | nil => simp [findFallback] at h
  | cons c cs ih =>
    rw [findFallback] at h
    by_cases hc : c = '-'
    · simp only [hc, if_true] at h
      cases hf : fallbackHere cs with
      | none => rw [hf] at h; exact ih h
      | some u => rw [hf] at h; cases h; exact fallbackHere_mem cs _ hf
    · simp only [hc, if_false] at h
      exact ih h

theorem filterMap_markedYield_of_unmarked (lis : List Node)
    (h : ∀ x ∈ lis, isCorrectMarked x = false) :
    lis.filterMap markedYield = [] := by
  rw [List.filterMap_eq_nil_iff]
  intro a ha
  unfold markedYield
  simp [h a ha]

theorem filterMap_markedYield_single (lis : List Node) (lm : Node) (y : String)
    (hf : lis.filter isCorrectMarked = [lm]) (hy : markedYield lm = some y) :
    lis.filterMap markedYield = [y] := by
  induction lis with
  | nil => simp at hf
  | cons li rest ih =>
    by_cases hm : isCorrectMarked li
    · rw [List.filter_cons_of_pos hm] at hf
      simp only [List.cons.injEq] at hf
      obtain ⟨rfl, hrest⟩ := hf
      rw [List.filterMap_cons, hy]
      rw [filterMap_markedYield_of_unmarked rest
        (fun x hx => by simpa using List.filter_eq_nil_iff.mp hrest x hx)]
    · rw [List.filter_cons_of_neg hm] at hf
      have hnone : markedYield li = none := by
        unfold markedYield
        simp [hm]
      rw [List.filterMap_cons, hnone]
      exact ih hf

theorem getLastD_mem_of_ne_nil {α : Type} (l : List α) (d : α) (h : l ≠ []) :
    l.getLastD d ∈ l := by
  induction l generalizing d with
  | nil => exact absurd rfl h
  | cons a m ih =>
    rw [List.getLastD_cons]
    cases m with
    | nil => simp [List.getLastD]
    | cons b k => exact List.mem_cons_of_mem _ (ih a (by simp))

/-! ## Claim theorems -/

/-- C3: for every multiple-choice row, the correct answer is determined per
list item by `markedYield` (marker class, label letter preferred, fallback
attribute otherwise); the recorded `correct_option` is the letter of the last
item in document order that yields one, and the empty string when no marked
item yields a letter. -/
theorem extract_mcqs_correct_option_rule (doc : Node) :
    extract_mcqs doc = (selectRows doc).map mcqRow ∧
    ∀ row ∈ selectRows doc,
      (mcqRow row).correct_option =
        ((selectUlLi row).filterMap markedYield).getLastD "" :=
  ⟨rfl, fun row _ => mcqRow_correct_option row⟩

theorem extract_mcqs_correct_option_rule_witness :
    (mcqRow c3row).correct_option = "B" := by
  have hmem : c3row ∈ selectRows c3doc := by
    have e : selectRows c3doc = [c3row] := rfl
    rw [e]
    exact List.mem_cons_self _ _
  have h := (extract_mcqs_correct_option_rule c3doc).2 c3row hmem
  exact h.trans rfl

/-- C1: a row whose four list items are labeled (A)–(D) in any document
order, with the marked item `lm`, maps each item's option texts into the slot
named by its letter, and `correct_option` is the marked item's letter. -/
theorem extract_mcqs_option_mapping (doc row l1 l2 l3 l4 lm : Node)
    (hrow : row ∈ selectRows doc)
    (hlis : selectUlLi row = [l1, l2, l3, l4])
    (hperm : List.Perm [letterOf l1, letterOf l2, letterOf l3, letterOf l4]
      ["A", "B", "C", "D"])
    (hmark : List.filter isCorrectMarked [l1, l2, l3, l4] = [lm]) :
    (∀ li ∈ [l1, l2, l3, l4],
      optionSlot (mcqRow row) (letterOf li) = (enTextOf li, urTextOf li)) ∧
    (mcqRow row).correct_option = letterOf lm ∧
    mcqRow row ∈ extract_mcqs doc := by
  have hnd : List.Nodup [letterOf l1, letterOf l2, letterOf l3, letterOf l4] :=
    hperm.symm.nodup (by decide)
  have hmem : ∀ li ∈ [l1, l2, l3, l4], isSlotLetter (letterOf li) := by
    intro li hli
    have hin : letterOf li ∈ (["A", "B", "C", "D"] : List String) := by
      refine hperm.mem_iff.mp ?_
      simp only [List.mem_cons, List.not_mem_nil, or_false] at hli
      rcases hli with rfl | rfl | rfl | rfl
      · exact List.mem_cons_self _ _
      · exact List.mem_cons_of_mem _ (List.mem_cons_self _ _)
      · exact List.mem_cons_of_mem _ (List.mem_cons_of_mem _ (List.mem_cons_self _ _))
      · exact List.mem_cons_of_mem _ (List.mem_cons_of_mem _
          (List.mem_cons_of_mem _ (List.mem_cons_self _ _)))
    simpa [isSlotLetter] using hin
  obtain ⟨hn1, hnd2⟩ := List.nodup_cons.mp hnd
  obtain ⟨hn2, hnd3⟩ := List.nodup_cons.mp hnd2
  obtain ⟨hn3, -⟩ := List.nodup_cons.mp hnd3
  have h12 : letterOf l1 ≠ letterOf l2 :=
    fun e => hn1 (by rw [e]; exact List.mem_cons_self _ _)
  have h13 : letterOf l1 ≠ letterOf l3 :=
    fun e => hn1 (by rw [e]; exact List.mem_cons_of_mem _ (List.mem_cons_self _ _))
  have h14 : letterOf l1 ≠ letterOf l4 :=
    fun e => hn1 (by rw [e]; exact List.mem_cons_of_mem _ (List.mem_cons_of_mem _ (List.mem_cons_self _ _)))
  have h23 : letterOf l2 ≠ letterOf l3 :=
    fun e => hn2 (by rw [e]; exact List.mem_cons_self _ _)
  have h24 : letterOf l2 ≠ letterOf l4 :=
    fun e => hn2 (by rw [e]; exact List.mem_cons_of_mem _ (List.mem_cons_self _ _))
  have h34 : letterOf l3 ≠ letterOf l4 :=
    fun e => hn3 (by rw [e]; exact List.mem_cons_self _ _)
  have hlmmem : lm ∈ [l1, l2, l3, l4] := by
    have : lm ∈ List.filter isCorrectMarked [l1, l2, l3, l4] := by
      rw [hmark]
      exact List.mem_cons_self _ _
    exact List.mem_of_mem_filter this
  refine ⟨?_, ?_, ?_⟩
  · intro li hli
    have hl := hmem li hli
    simp only [List.mem_cons, List.not_mem_nil, or_false] at hli
    rcases hli with rfl | rfl | rfl | rfl
    · rw [optionSlot_mcqRow row _ hl, hlis]
      exact getOpt_foldl_last [] [l2, l3, l4] li initOpts hl
        (by
          intro x hx
          simp only [List.mem_cons, List.not_mem_nil, or_false] at hx
          rcases hx with rfl | rfl | rfl
          · exact fun e => h12 e.symm
          · exact fun e => h13 e.symm
          · exact fun e => h14 e.symm)
    · rw [optionSlot_mcqRow row _ hl]
      rw [show selectUlLi row = [l1] ++ li :: [l3, l4] from hlis]
      exact getOpt_foldl_last [l1] [l3, l4] li initOpts hl
        (by
          intro x hx
          simp only [List.mem_cons, List.not_mem_nil, or_false] at hx
          rcases hx with rfl | rfl
          · exact fun e => h23 e.symm
          · exact fun e => h24 e.symm)
    · rw [optionSlot_mcqRow row _ hl]
      rw [show selectUlLi row = [l1, l2] ++ li :: [l4] from hlis]
      exact getOpt_foldl_last [l1, l2] [l4] li initOpts hl
        (by
          intro x hx
          simp only [List.mem_cons, List.not_mem_nil, or_false] at hx
          rcases hx with rfl
          · exact fun e => h34 e.symm)
    · rw [optionSlot_mcqRow row _ hl]
      rw [show selectUlLi row = [l1, l2, l3] ++ li :: [] from hlis]
      exact getOpt_foldl_last [l1, l2, l3] [] li initOpts hl
        (by intro x hx; exact absurd hx (List.not_mem_nil _))
  · have hlml := hmem lm hlmmem
    have hne : letterOf lm ≠ "" := by
      rcases hlml with h | h | h | h <;> simp [h]
    have hmk : isCorrectMarked lm := by
      have hmem2 : lm ∈ List.filter isCorrectMarked [l1, l2, l3, l4] := by
        rw [hmark]
        exact List.mem_cons_self _ _
      exact List.of_mem_filter hmem2
    have hy : markedYield lm = some (letterOf lm) := by
      unfold markedYield
      simp [hmk, hne]
    rw [mcqRow_correct_option, hlis,
      filterMap_markedYield_single _ lm _ hmark hy]
    rfl
  · exact List.mem_map_of_mem _ hrow

theorem extract_mcqs_option_mapping_witness :
    optionSlot (mcqRow c1row) "A" = ("alpha", "ا") ∧
    optionSlot (mcqRow c1row) "B" = ("beta", "ب") ∧
    optionSlot (mcqRow c1row) "C" = ("gamma", "ج") ∧
    optionSlot (mcqRow c1row) "D" = ("delta", "د") ∧
    (mcqRow c1row).correct_option = "D" := by
  have hrow : c1row ∈ selectRows c1doc := by
    have e : selectRows c1doc = [c1row] := rfl
    rw [e]
    exact List.mem_cons_self _ _
  have hperm : List.Perm [letterOf c1liB, letterOf c1liD, letterOf c1liA, letterOf c1liC]
      ["A", "B", "C", "D"] := by
    have e : [letterOf c1liB, letterOf c1liD, letterOf c1liA, letterOf c1liC] =
        ["B", "D", "A", "C"] := rfl
    rw [e]
    decide
  have H := extract_mcqs_option_mapping c1doc c1row c1liB c1liD c1liA c1liC c1liD
    hrow rfl hperm rfl
  have hA := H.1 c1liA (List.mem_cons_of_mem _ (List.mem_cons_of_mem _
    (List.mem_cons_self _ _)))
  have hB := H.1 c1liB (List.mem_cons_self _ _)
  have hC := H.1 c1liC (List.mem_cons_of_mem _ (List.mem_cons_of_mem _
    (List.mem_cons_of_mem _ (List.mem_cons_self _ _))))
  have hD := H.1 c1liD (List.mem_cons_of_mem _ (List.mem_cons_self _ _))
  exact ⟨hA, hB, hC, hD, H.2.1⟩

/-- C10: when several list items carry the same slot letter, the slot holds
the texts of the last such item in document order. -/
theorem extract_mcqs_duplicate_label_last_wins
    (doc row lj li : Node) (pre post : List Node)
    (_hrow : row ∈ selectRows doc)
    (hlis : selectUlLi row = pre ++ li :: post)
    (hl : isSlotLetter (letterOf li))
    (_hdup : lj ∈ pre ∧ letterOf lj = letterOf li)
    (hlast : ∀ x ∈ post, letterOf x ≠ letterOf li) :
    optionSlot (mcqRow row) (letterOf li) = (enTextOf li, urTextOf li) := by
  rw [optionSlot_mcqRow row _ hl, hlis]
  exact getOpt_foldl_last pre post li initOpts hl hlast

theorem extract_mcqs_duplicate_label_last_wins_witness :
    optionSlot (mcqRow c10row) "A" = ("second", "دوم") := by
  have hrow : c10row ∈ selectRows c10doc := by
    have e : selectRows c10doc = [c10row] := rfl
    rw [e]
    exact List.mem_cons_self _ _
  have H := extract_mcqs_duplicate_label_last_wins c10doc c10row c10li1 c10li2
    [c10li1] [] hrow rfl (Or.inl rfl) ⟨List.mem_cons_self _ _, rfl⟩
    (by intro x hx; exact absurd hx (List.not_mem_nil _))
  exact H

/-- C2 counterexample: a marked item whose span label reads `(X)` makes
`extract_mcqs` record `correct_option = "X"`, which is neither one of the
four letters nor empty. -/
theorem extract_mcqs_correct_option_alphabet_cex :
    (extract_mcqs c2doc).map McqRecord.correct_option = ["X"] ∧
    ¬ ("X" = "A" ∨ "X" = "B" ∨ "X" = "C" ∨ "X" = "D" ∨ "X" = "") :=
  ⟨rfl, by decide⟩

/-- C2 amended: provided every list item's parsed label letter is empty or
one of A–D (as in the scripts' corpus), every record's `correct_option` is
one of the four letters or empty. -/
theorem extract_mcqs_correct_option_alphabet (doc : Node)
    (hlabels : ∀ row ∈ selectRows doc, ∀ li ∈ selectUlLi row,
      letterOf li = "" ∨ isSlotLetter (letterOf li)) :
    ∀ r ∈ extract_mcqs doc,
      r.correct_option = "A" ∨ r.correct_option = "B" ∨
      r.correct_option = "C" ∨ r.correct_option = "D" ∨
      r.correct_option = "" := by
  intro r hr
  obtain ⟨row, hrow, rfl⟩ := List.mem_map.mp hr
  rw [mcqRow_correct_option]
  by_cases hnil : (selectUlLi row).filterMap markedYield = []
  · rw [hnil]
    right; right; right; right
    rfl
  · have hmm : ((selectUlLi row).filterMap markedYield).getLastD "" ∈
        (selectUlLi row).filterMap markedYield :=
      getLastD_mem_of_ne_nil _ "" hnil
    obtain ⟨li, hli, hyld⟩ := List.mem_filterMap.mp hmm
    have hslot : isSlotLetter (((selectUlLi row).filterMap markedYield).getLastD "") := by
      unfold markedYield at hyld
      split_ifs at hyld with hmk hne
      · rcases hlabels row hrow li hli with he | hs
        · exact absurd he hne
        · exact (Option.some.inj hyld) ▸ hs
      · exact findFallback_mem _ _ hyld
    rcases hslot with h | h | h | h
    · exact Or.inl h
    · exact Or.inr (Or.inl h)
    · exact Or.inr (Or.inr (Or.inl h))
    · exact Or.inr (Or.inr (Or.inr (Or.inl h)))

theorem extract_mcqs_correct_option_alphabet_witness :
    (mcqRow c2rowGood).correct_option = "A" ∨
    (mcqRow c2rowGood).correct_option = "B" ∨
    (mcqRow c2rowGood).correct_option = "C" ∨
    (mcqRow c2rowGood).correct_option = "D" ∨
    (mcqRow c2rowGood).correct_option = "" := by
  have hmem : mcqRow c2rowGood ∈ extract_mcqs c2docGood := by
    have e : extract_mcqs c2docGood = [mcqRow c2rowGood] := rfl
    rw [e]
    exact List.mem_cons_self _ _
  exact extract_mcqs_correct_option_alphabet c2docGood (by decide) _ hmem

/-- C9: the plain-form extraction functions of `long.py` and `short.py` are
extensionally equal — they are the same function of the parsed markup. -/
theorem extract_long_eq_extract_questions :
    ∀ doc : Node, extract_long_questions doc = extract_questions doc :=
  fun _ => rfl

/-- C6: a row with no `.EnglishDiv p` (resp. `.UrduDiv p`) match yields an
empty `english` (resp. `urdu`) field, and every selected row still produces a
record — extraction never fails. -/
theorem extract_missing_div_defaults (doc : Node) :
    extract_questions doc = (selectRows doc).map shortRow ∧
    extract_long_questions doc = (selectRows doc).map longRow ∧
    ∀ row ∈ selectRows doc,
      (selectOneClassTag ("EnglishDiv") ("p") row = none →
        (shortRow row).english = "" ∧ (longRow row).english = "") ∧
      (selectOneClassTag ("UrduDiv") ("p") row = none →
        (shortRow row).urdu = "" ∧ (longRow row).urdu = "") := by
  refine ⟨rfl, rfl, fun row _ => ⟨fun h => ?_, fun h => ?_⟩⟩
  · constructor
    · show replaceNbsp (match selectOneClassTag ("EnglishDiv") ("p") row with
        | some p => getTextSep p
        | none => "") = ""
      rw [h]
      rfl
    · show replaceNbsp (match selectOneClassTag ("EnglishDiv") ("p") row with
        | some p => getTextSep p
        | none => "") = ""
      rw [h]
      rfl
  · constructor
    · show replaceNbsp (match selectOneClassTag ("UrduDiv") ("p") row with
        | some p => getTextSep p
        | none => "") = ""
      rw [h]
      rfl
    · show replaceNbsp (match selectOneClassTag ("UrduDiv") ("p") row with
        | some p => getTextSep p
        | none => "") = ""
      rw [h]
      rfl

theorem extract_missing_div_defaults_witness :
    (shortRow c6row).english = "" ∧ (longRow c6row).urdu = "" := by
  have hmem : c6row ∈ selectRows c6doc := by
    have e : selectRows c6doc = [c6row] := rfl
    rw [e]
    exact List.mem_cons_self _ _
  have H := (extract_missing_div_defaults c6doc).2.2 c6row hmem
  exact ⟨(H.1 rfl).1, (H.2 rfl).2⟩

/-- C8: re-running a script with the same input appends the same data rows
again: starting from no file, the first run writes the header and the rows;
the second run, seeing a nonempty file, appends exactly the rows once more,
so the data-row count doubles and the header is not repeated. -/
theorem csv_append_run_twice (header : String) (dataRows : List String) :
    csvAppendRun header none dataRows = header :: dataRows ∧
    csvAppendRun header (some (header :: dataRows)) dataRows =
      header :: (dataRows ++ dataRows) ∧
    (csvAppendRun header (some (csvAppendRun header none dataRows)) dataRows).length - 1 =
      2 * ((csvAppendRun header none dataRows).length - 1) := by
  have h1 : csvAppendRun header none dataRows = header :: dataRows := rfl
  have h2 : csvAppendRun header (some (header :: dataRows)) dataRows =
      header :: (dataRows ++ dataRows) := by
    unfold csvAppendRun
    simp
  refine ⟨h1, h2, ?_⟩
  rw [h1, h2]
  simp [List.length_append]
  ring


theorem nbspFree_replaceNbsp (s : String) : nbspFree (replaceNbsp s) := by
  unfold nbspFree replaceNbsp
  intro hmem
  obtain ⟨c, hc, he⟩ := List.mem_map.mp hmem
  by_cases h : c = '\xa0'
  · rw [if_pos h] at he
    exact absurd he (by decide)
  · rw [if_neg h] at he
    exact h he

theorem mem_of_mem_dropWhile {p : Char → Bool} {l : List Char} {c : Char}
    (h : c ∈ l.dropWhile p) : c ∈ l := by
  induction l with
  | nil => simp at h
  | cons a m ih =>
    rw [List.dropWhile_cons] at h
    split_ifs at h with hp
    · exact List.mem_cons_of_mem _ (ih h)
    · exact h

theorem mem_of_mem_pyStrip (s : String) (c : Char) (h : c ∈ (pyStrip s).data) :
    c ∈ s.data := by
  unfold pyStrip at h
  rw [List.mem_reverse] at h
  have h2 := mem_of_mem_dropWhile h
  rw [List.mem_reverse] at h2
  exact mem_of_mem_dropWhile h2

theorem nbspFree_pyStrip (s : String) (hs : nbspFree s) : nbspFree (pyStrip s) :=
  fun h => hs (mem_of_mem_pyStrip s _ h)

theorem nbspFree_cleanText (s : String) : nbspFree (cleanText s) :=
  nbspFree_pyStrip _ (nbspFree_replaceNbsp s)

theorem nbspFree_enTextOf (li : Node) : nbspFree (enTextOf li) :=
  nbspFree_cleanText _

theorem nbspFree_urTextOf (li : Node) : nbspFree (urTextOf li) :=
  nbspFree_cleanText _

theorem optsClean_init : OptsClean initOpts := by
  unfold OptsClean nbspFree initOpts
  decide

theorem optsClean_procOpt (o : Opts) (li : Node) (h : OptsClean o) :
    OptsClean (procOpt o li) := by
  obtain ⟨h1, h2, h3, h4, h5, h6, h7, h8⟩ := h
  unfold procOpt setOpt
  split_ifs
  · exact ⟨nbspFree_enTextOf li, nbspFree_urTextOf li, h3, h4, h5, h6, h7, h8⟩
  · exact ⟨h1, h2, nbspFree_enTextOf li, nbspFree_urTextOf li, h5, h6, h7, h8⟩
  · exact ⟨h1, h2, h3, h4, nbspFree_enTextOf li, nbspFree_urTextOf li, h7, h8⟩
  · exact ⟨h1, h2, h3, h4, h5, h6, nbspFree_enTextOf li, nbspFree_urTextOf li⟩
  · exact ⟨h1, h2, h3, h4, h5, h6, h7, h8⟩

theorem optsClean_foldl (lis : List Node) (o : Opts) (h : OptsClean o) :
    OptsClean (lis.foldl procOpt o) := by
  induction lis generalizing o with
  | nil => exact h
  | cons li rest ih => exact ih _ (optsClean_procOpt o li h)

/-- C7 amended: every text-derived output field — `english`/`urdu` of the
plain records and the question and option fields of the multiple-choice
records — is free of non-breaking spaces; `correct_option` (see the claim's
counterexample) and the verbatim `id` attribute are the exceptions. -/
theorem extract_text_fields_nbsp_free (doc : Node) :
    (∀ r ∈ extract_questions doc, nbspFree r.english ∧ nbspFree r.urdu) ∧
    (∀ r ∈ extract_long_questions doc, nbspFree r.english ∧ nbspFree r.urdu) ∧
    (∀ r ∈ extract_mcqs doc,
      nbspFree r.question_en ∧ nbspFree r.question_ur ∧
      nbspFree r.option_a_en ∧ nbspFree r.option_a_ur ∧
      nbspFree r.option_b_en ∧ nbspFree r.option_b_ur ∧
      nbspFree r.option_c_en ∧ nbspFree r.option_c_ur ∧
      nbspFree r.option_d_en ∧ nbspFree r.option_d_ur) := by
  refine ⟨?_, ?_, ?_⟩
  · intro r hr
    obtain ⟨row, -, rfl⟩ := List.mem_map.mp hr
    exact ⟨nbspFree_replaceNbsp _, nbspFree_replaceNbsp _⟩
  · intro r hr
    obtain ⟨row, -, rfl⟩ := List.mem_map.mp hr
    exact ⟨nbspFree_replaceNbsp _, nbspFree_replaceNbsp _⟩
  · intro r hr
    obtain ⟨row, -, rfl⟩ := List.mem_map.mp hr
    obtain ⟨h1, h2, h3, h4, h5, h6, h7, h8⟩ :
        OptsClean ((selectUlLi row).foldl procOpt initOpts) :=
      optsClean_foldl _ _ optsClean_init
    have key : ((selectUlLi row).foldl procLi (initOpts, "")).1 =
        (selectUlLi row).foldl procOpt initOpts := by
      rw [procLi_foldl]
    refine ⟨nbspFree_cleanText _, nbspFree_cleanText _, ?_, ?_, ?_, ?_, ?_, ?_, ?_, ?_⟩
    · show nbspFree ((selectUlLi row).foldl procLi (initOpts, "")).1.a_en
      rw [key]
      exact h1
    · show nbspFree ((selectUlLi row).foldl procLi (initOpts, "")).1.a_ur
      rw [key]
      exact h2
    · show nbspFree ((selectUlLi row).foldl procLi (initOpts, "")).1.b_en
      rw [key]
      exact h3
    · show nbspFree ((selectUlLi row).foldl procLi (initOpts, "")).1.b_ur
      rw [key]
      exact h4
    · show nbspFree ((selectUlLi row).foldl procLi (initOpts, "")).1.c_en
      rw [key]
      exact h5
    · show nbspFree ((selectUlLi row).foldl procLi (initOpts, "")).1.c_ur
      rw [key]
      exact h6
    · show nbspFree ((selectUlLi row).foldl procLi (initOpts, "")).1.d_en
      rw [key]
      exact h7
    · show nbspFree ((selectUlLi row).foldl procLi (initOpts, "")).1.d_ur
      rw [key]
      exact h8

theorem extract_text_fields_nbsp_free_witness :
    nbspFree (mcqRow c7rowGood).question_en ∧
    nbspFree (mcqRow c7rowGood).option_a_en ∧
    nbspFree (shortRow c7rowGood).english := by
  have hmem : mcqRow c7rowGood ∈ extract_mcqs c7docGood := by
    have e : extract_mcqs c7docGood = [mcqRow c7rowGood] := rfl
    rw [e]
    exact List.mem_cons_self _ _
  have hmems : shortRow c7rowGood ∈ extract_questions c7docGood := by
    have e : extract_questions c7docGood = [shortRow c7rowGood] := rfl
    rw [e]
    exact List.mem_cons_self _ _
  have H := (extract_text_fields_nbsp_free c7docGood).2.2 _ hmem
  have Hs := (extract_text_fields_nbsp_free c7docGood).1 _ hmems
  exact ⟨H.1, H.2.2.1, Hs.1⟩

/-- C7 counterexample: the marked item's label text `(X Y)` (with a
non-breaking space between the letters) flows into `correct_option`
unreplaced, so an output field of a returned record retains a non-breaking
space. -/
theorem extract_nbsp_in_correct_option_cex :
    (extract_mcqs c7doc).map McqRecord.correct_option =
      [String.mk ['X', '\xa0', 'Y']] ∧
    ('\xa0' : Char) ∈ (String.mk ['X', '\xa0', 'Y']).data :=
  ⟨rfl, by decide⟩

/-! ## Section-parsing lemmas (C4) -/

theorem basename_no_slash (s : String) (h : ('/' : Char) ∉ s.data) :
    basename s = s := by
  unfold basename
  have ht : s.data.reverse.takeWhile (fun c => ¬ (c = '/')) = s.data.reverse := by
    rw [List.takeWhile_eq_self_iff]
    intro a ha
    simp only [decide_eq_true_eq]
    exact fun e => h (e ▸ List.mem_reverse.mp ha)
  rw [ht, List.reverse_reverse]

theorem dropWhile_not_dot_append (e rest : List Char) (he : ('.' : Char) ∉ e) :
    (e ++ '.' :: rest).dropWhile (fun x => ¬ (x = '.')) = '.' :: rest := by
  induction e with
  | nil =>
    rw [List.nil_append, List.dropWhile_cons]
    simp
  | cons a as ih =>
    rw [List.cons_append, List.dropWhile_cons]
    have ha : ¬ (a = '.') := fun e => he (e ▸ List.mem_cons_self _ _)
    rw [if_pos (by simp [ha])]
    exact ih (fun m => he (List.mem_cons_of_mem _ m))

theorem splitextStem_strip (c : Char) (cs e : List Char) (hc : ¬ (c = '.'))
    (he : ('.' : Char) ∉ e) :
    splitextStem (String.mk (c :: (cs ++ '.' :: e))) = String.mk (c :: cs) := by
  unfold splitextStem
  simp only []
  rw [List.takeWhile_cons]
  have h1 : (if decide (c = '.') = true then
      c :: List.takeWhile (fun c => decide (c = '.')) (cs ++ '.' :: e) else []) = [] :=
    if_neg (by simpa using hc)
  rw [h1]
  simp only [List.length_nil, List.drop_zero]
  rw [if_pos (List.mem_cons_of_mem _ (List.mem_append_right _ (List.mem_cons_self _ _)))]
  refine congrArg String.mk ?_
  have hrev : (c :: (cs ++ '.' :: e)).reverse = e.reverse ++ '.' :: (cs.reverse ++ [c]) := by
    simp [List.reverse_cons, List.reverse_append, List.append_assoc]
  rw [hrev, dropWhile_not_dot_append _ _ (fun m => he (List.mem_reverse.mp m))]
  simp

theorem String_mk_data (s : String) : String.mk s.data = s := by
  cases s
  rfl

theorem string_eq_empty_of_data_nil (s : String) (h : s.data = []) : s = "" := by
  cases s
  exact congrArg String.mk h

theorem splitFirstDot_no_dot (l : List Char) (h : ('.' : Char) ∉ l) :
    splitFirstDot l = (l, none) := by
  induction l with
  | nil => rfl
  | cons a as ih =>
    have ha : ¬ (a = '.') := fun e => h (e ▸ List.mem_cons_self _ _)
    simp [splitFirstDot, ha, ih (fun m => h (List.mem_cons_of_mem _ m))]

theorem splitFirstDot_append (a r : List Char) (h : ('.' : Char) ∉ a) :
    splitFirstDot (a ++ '.' :: r) = (a, some r) := by
  induction a with
  | nil => simp [splitFirstDot]
  | cons x xs ih =>
    have hx : ¬ (x = '.') := fun e => h (e ▸ List.mem_cons_self _ _)
    simp [splitFirstDot, hx, ih (fun m => h (List.mem_cons_of_mem _ m))]

theorem splitDotMax2_one (l : List Char) (h : ('.' : Char) ∉ l) :
    splitDotMax2 l = [l] := by
  unfold splitDotMax2
  rw [splitFirstDot_no_dot l h]
  rfl

theorem splitDotMax2_two (n m : List Char) (hn : ('.' : Char) ∉ n)
    (hm : ('.' : Char) ∉ m) :
    splitDotMax2 (n ++ '.' :: m) = [n, m] := by
  unfold splitDotMax2
  rw [splitFirstDot_append _ _ hn]
  show splitDotStep2 n (splitFirstDot m) = [n, m]
  rw [splitFirstDot_no_dot m hm]
  rfl

theorem splitDotMax2_three (n m r : List Char) (hn : ('.' : Char) ∉ n)
    (hm : ('.' : Char) ∉ m) :
    splitDotMax2 (n ++ '.' :: (m ++ '.' :: r)) = [n, m, r] := by
  unfold splitDotMax2
  rw [splitFirstDot_append _ _ hn]
  show splitDotStep2 n (splitFirstDot (m ++ '.' :: r)) = [n, m, r]
  rw [splitFirstDot_append _ _ hm]
  rfl

theorem parse_full (N M slug : String) (hN : N ≠ "")
    (hNd : ('.' : Char) ∉ N.data) (hNs : ('/' : Char) ∉ N.data)
    (hMd : ('.' : Char) ∉ M.data) (hMs : ('/' : Char) ∉ M.data)
    (hSs : ('/' : Char) ∉ slug.data) :
    parse_section_parts (N ++ "." ++ M ++ "." ++ slug ++ ".html") =
      (N ++ "." ++ M, slug) := by
  obtain ⟨c, t, hNdata⟩ : ∃ c t, N.data = c :: t := by
    cases hd : N.data with
    | nil => exact absurd (string_eq_empty_of_data_nil N hd) hN
    | cons c t => exact ⟨c, t, rfl⟩
  have hc : ¬ (c = '.') := fun e => hNd (by rw [hNdata, e]; exact List.mem_cons_self _ _)
  have hfd : (N ++ "." ++ M ++ "." ++ slug ++ ".html").data
      = N.data ++ '.' :: (M.data ++ '.' :: (slug.data ++ '.' :: ('h' :: 't' :: 'm' :: 'l' :: []))) := by
    simp [String.data_append, List.append_assoc]
  have hslash : ('/' : Char) ∉ (N ++ "." ++ M ++ "." ++ slug ++ ".html").data := by
    rw [hfd]
    simp [List.mem_append, List.mem_cons, hNs, hMs, hSs]
  have hb : basename (N ++ "." ++ M ++ "." ++ slug ++ ".html")
      = N ++ "." ++ M ++ "." ++ slug ++ ".html" := basename_no_slash _ hslash
  have hshape : (N ++ "." ++ M ++ "." ++ slug ++ ".html").data
      = c :: ((t ++ '.' :: (M.data ++ '.' :: slug.data)) ++ '.' :: ('h' :: 't' :: 'm' :: 'l' :: [])) := by
    rw [hfd, hNdata]
    simp [List.append_assoc]
  have hstem : splitextStem (basename (N ++ "." ++ M ++ "." ++ slug ++ ".html"))
      = String.mk (c :: (t ++ '.' :: (M.data ++ '.' :: slug.data))) := by
    rw [hb]
    rw [show (N ++ "." ++ M ++ "." ++ slug ++ ".html")
        = String.mk (c :: ((t ++ '.' :: (M.data ++ '.' :: slug.data)) ++ '.' :: ('h' :: 't' :: 'm' :: 'l' :: []))) from
      (String_mk_data _).symm.trans (congrArg String.mk hshape)]
    exact splitextStem_strip c _ _ hc (by decide)
  unfold parse_section_parts
  simp only []
  rw [hstem]
  rw [show (String.mk (c :: (t ++ '.' :: (M.data ++ '.' :: slug.data)))).data
      = N.data ++ '.' :: (M.data ++ '.' :: slug.data) from by rw [hNdata]; rfl]
  rw [splitDotMax2_three _ _ _ hNd hMd]
  simp only [List.map_cons, List.map_nil, String_mk_data]
  have hjoin : joinDot [N, M] = N ++ "." ++ M := rfl
  simp [hjoin]

theorem parse_nm (N M : String) (hN : N ≠ "")
    (hNd : ('.' : Char) ∉ N.data) (hNs : ('/' : Char) ∉ N.data)
    (hMd : ('.' : Char) ∉ M.data) (hMs : ('/' : Char) ∉ M.data) :
    parse_section_parts (N ++ "." ++ M ++ ".html") = (N ++ "." ++ M, "") := by
  obtain ⟨c, t, hNdata⟩ : ∃ c t, N.data = c :: t := by
    cases hd : N.data with
    | nil => exact absurd (string_eq_empty_of_data_nil N hd) hN
    | cons c t => exact ⟨c, t, rfl⟩
  have hc : ¬ (c = '.') := fun e => hNd (by rw [hNdata, e]; exact List.mem_cons_self _ _)
  have hfd : (N ++ "." ++ M ++ ".html").data
      = N.data ++ '.' :: (M.data ++ '.' :: ('h' :: 't' :: 'm' :: 'l' :: [])) := by
    simp [String.data_append, List.append_assoc]
  have hslash : ('/' : Char) ∉ (N ++ "." ++ M ++ ".html").data := by
    rw [hfd]
    simp [List.mem_append, List.mem_cons, hNs, hMs]
  have hb : basename (N ++ "." ++ M ++ ".html") = N ++ "." ++ M ++ ".html" :=
    basename_no_slash _ hslash
  have hshape : (N ++ "." ++ M ++ ".html").data
      = c :: ((t ++ '.' :: M.data) ++ '.' :: ('h' :: 't' :: 'm' :: 'l' :: [])) := by
    rw [hfd, hNdata]
    simp [List.append_assoc]
  have hstem : splitextStem (basename (N ++ "." ++ M ++ ".html"))
      = String.mk (c :: (t ++ '.' :: M.data)) := by
    rw [hb]
    rw [show (N ++ "." ++ M ++ ".html")
        = String.mk (c :: ((t ++ '.' :: M.data) ++ '.' :: ('h' :: 't' :: 'm' :: 'l' :: []))) from
      (String_mk_data _).symm.trans (congrArg String.mk hshape)]
    exact splitextStem_strip c _ _ hc (by decide)
  unfold parse_section_parts
  simp only []
  rw [hstem]
  rw [show (String.mk (c :: (t ++ '.' :: M.data))).data
      = N.data ++ '.' :: M.data from by rw [hNdata]; rfl]
  rw [splitDotMax2_two _ _ hNd hMd]
  simp only [List.map_cons, List.map_nil, String_mk_data]
  have hjoin : joinDot [N, M] = N ++ "." ++ M := rfl
  simp [hjoin]

theorem parse_nodot (f : String)
    (h : ('.' : Char) ∉ (splitextStem (basename f)).data) :
    parse_section_parts f = ("", splitextStem (basename f)) := by
  unfold parse_section_parts
  simp only []
  rw [splitDotMax2_one _ h]
  simp only [List.map_cons, List.map_nil, String_mk_data]
  simp

/-- C4: section parsing — `N.M.slug.html` yields section number `N.M` and
name `slug`; `N.M.html` yields `N.M` and an empty name; a filename whose stem
has no dot yields an empty section number and the stem as the name. -/
theorem parse_section_parts_spec :
    (∀ N M slug : String, N ≠ "" →
      ('.' : Char) ∉ N.data → ('/' : Char) ∉ N.data →
      ('.' : Char) ∉ M.data → ('/' : Char) ∉ M.data →
      ('/' : Char) ∉ slug.data →
      parse_section_parts (N ++ "." ++ M ++ "." ++ slug ++ ".html") =
        (N ++ "." ++ M, slug)) ∧
    (∀ N M : String, N ≠ "" →
      ('.' : Char) ∉ N.data → ('/' : Char) ∉ N.data →
      ('.' : Char) ∉ M.data → ('/' : Char) ∉ M.data →
      parse_section_parts (N ++ "." ++ M ++ ".html") = (N ++ "." ++ M, "")) ∧
    (∀ f : String, ('.' : Char) ∉ (splitextStem (basename f)).data →
      parse_section_parts f = ("", splitextStem (basename f))) :=
  ⟨fun N M slug h1 h2 h3 h4 h5 h6 => parse_full N M slug h1 h2 h3 h4 h5 h6,
   fun N M h1 h2 h3 h4 h5 => parse_nm N M h1 h2 h3 h4 h5,
   fun f h => parse_nodot f h⟩

theorem parse_section_parts_spec_witness :
    parse_section_parts "1.2.intro.html" = ("1.2", "intro") ∧
    parse_section_parts "3.4.html" = ("3.4", "") ∧
    parse_section_parts "notes.html" = ("", "notes") := by
  refine ⟨?_, ?_, ?_⟩
  · exact parse_section_parts_spec.1 "1" "2" "intro" (by decide) (by decide)
      (by decide) (by decide) (by decide) (by decide)
  · exact parse_section_parts_spec.2.1 "3" "4" (by decide) (by decide) (by decide)
      (by decide) (by decide)
  · have h := parse_section_parts_spec.2.2 "notes.html" (by decide)
    exact h.trans (by decide)

/-! ## Chapter-search lemmas (C5) -/

theorem map_eq_target_iff {α β : Type} (f g : α → β) (L : List α) (target : List β)
    (h : ∀ c x, x ∈ target → (f c = x ↔ g c = x)) :
    L.map f = target ↔ L.map g = target := by
  induction L generalizing target with
  | nil => cases target <;> simp
  | cons a L ih =>
    cases target with
    | nil => simp
    | cons t ts =>
      simp only [List.map_cons, List.cons.injEq]
      constructor
      · rintro ⟨h1, h2⟩
        exact ⟨(h a t (List.mem_cons_self _ _)).mp h1,
          (ih ts (fun c x hx => h c x (List.mem_cons_of_mem _ hx))).mp h2⟩
      · rintro ⟨h1, h2⟩
        exact ⟨(h a t (List.mem_cons_self _ _)).mpr h1,
          (ih ts (fun c x hx => h c x (List.mem_cons_of_mem _ hx))).mpr h2⟩

theorem toLower_replSlash_iff (c x : Char) (hx : x ∈ lowerChapter) :
    Char.toLower (replSlash c) = x ↔ Char.toLower c = x := by
  by_cases hc : c = '\\'
  · subst hc
    unfold replSlash
    rw [if_pos rfl]
    constructor
    · intro h
      rw [← h] at hx
      exact absurd hx (by decide)
    · intro h
      rw [← h] at hx
      exact absurd hx (by decide)
  · unfold replSlash
    rw [if_neg hc]

theorem isDecimalDigit_replSlash (c : Char) :
    pyIsDecimalDigit (replSlash c) = pyIsDecimalDigit c := by
  unfold replSlash
  by_cases hc : c = '\\'
  · rw [if_pos hc, hc]
    decide
  · rw [if_neg hc]

theorem map_pointwise_id {α : Type} (f : α → α) (l : List α)
    (h : ∀ c ∈ l, f c = c) : l.map f = l := by
  induction l with
  | nil => rfl
  | cons a as ih =>
    rw [List.map_cons, h a (List.mem_cons_self _ _),
      ih (fun c hc => h c (List.mem_cons_of_mem _ hc))]

theorem map_replSlash_digits (l : List Char) (h : ∀ c ∈ l, pyIsDecimalDigit c) :
    l.map replSlash = l := by
  refine map_pointwise_id _ _ (fun c hc => ?_)
  unfold replSlash
  rw [if_neg]
  intro e
  have hd := h c hc
  rw [e] at hd
  exact absurd hd (by decide)

theorem map_replSlash_of_lower (l : List Char) (h : l.map Char.toLower = lowerChapter) :
    l.map replSlash = l := by
  refine map_pointwise_id _ _ (fun c hc => ?_)
  have hlow : Char.toLower c ∈ lowerChapter := by
    rw [← h]
    exact List.mem_map_of_mem _ hc
  unfold replSlash
  rw [if_neg]
  intro e
  rw [e] at hlow
  exact absurd hlow (by decide)

theorem takeWhile_isDigit_map_replSlash (l : List Char) :
    (l.map replSlash).takeWhile pyIsDecimalDigit =
      (l.takeWhile pyIsDecimalDigit).map replSlash := by
  have hp : (pyIsDecimalDigit ∘ replSlash) = pyIsDecimalDigit :=
    funext isDecimalDigit_replSlash
  rw [List.takeWhile_map, hp]

theorem matchChapterAt_map_replSlash (l : List Char) :
    matchChapterAt (l.map replSlash) = matchChapterAt l := by
  unfold matchChapterAt
  rw [← List.map_take, ← List.map_drop]
  have hcond : ((l.take 7).map replSlash).map Char.toLower = lowerChapter ↔
      (l.take 7).map Char.toLower = lowerChapter := by
    rw [List.map_map]
    exact map_eq_target_iff _ _ _ _ (fun c x hx => toLower_replSlash_iff c x hx)
  by_cases h : (l.take 7).map Char.toLower = lowerChapter
  · rw [if_pos (hcond.mpr h), if_pos h]
    rw [takeWhile_isDigit_map_replSlash]
    rw [map_replSlash_digits _ (fun c hc => List.mem_takeWhile_imp hc)]
    rw [map_replSlash_of_lower _ h]
  · rw [if_neg (fun hh => h (hcond.mp hh)), if_neg h]

theorem searchChapter_map_replSlash (l : List Char) :
    searchChapter (l.map replSlash) = searchChapter l := by
  induction l with
  | nil => rfl
  | cons c cs ih =>
    have e1 : searchChapter ((c :: cs).map replSlash) =
        match matchChapterAt ((c :: cs).map replSlash) with
        | some m => some m
        | none => searchChapter (cs.map replSlash) := rfl
    rw [e1, matchChapterAt_map_replSlash, ih]
    rfl

theorem takeWhile_append_of_all {p : Char → Bool} (a b : List Char)
    (h : ∀ c ∈ a, p c) : (a ++ b).takeWhile p = a ++ b.takeWhile p := by
  induction a with
  | nil => rfl
  | cons x xs ih =>
    rw [List.cons_append, List.takeWhile_cons, if_pos (h x (List.mem_cons_self _ _)),
      ih (fun c hc => h c (List.mem_cons_of_mem _ hc)), List.cons_append]

theorem matchChapterAt_some (l m : List Char) (h : matchChapterAt l = some m) :
    (∃ suf, l = m ++ suf) ∧ isChapterMatch m := by
  unfold matchChapterAt at h
  split_ifs at h with hcond
  · by_cases hds : (l.drop 7).takeWhile pyIsDecimalDigit = []
    · rw [if_pos hds] at h
      exact absurd h (by simp)
    · rw [if_neg hds] at h
      obtain rfl := Option.some.inj h
      have hl7 : 7 ≤ l.length := by
        have hl := congrArg List.length hcond
        simp [lowerChapter, List.length_take] at hl
        omega
      have hlen7 : (l.take 7).length = 7 := by
        simp [List.length_take]
        omega
      constructor
      · refine ⟨(l.drop 7).dropWhile pyIsDecimalDigit, ?_⟩
        conv_lhs => rw [← List.take_append_drop 7 l]
        rw [← List.takeWhile_append_dropWhile (p := pyIsDecimalDigit) (l := l.drop 7)]
        simp [List.append_assoc]
      · refine ⟨?_, ?_, ?_⟩
        · rw [List.take_append_of_le_length (by omega)]
          rw [List.take_of_length_le (by omega)]
          exact hcond
        · rw [List.drop_append_of_le_length (by omega)]
          rw [List.drop_of_length_le (by omega), List.nil_append]
          exact hds
        · intro c hc
          rw [List.drop_append_of_le_length (by omega)] at hc
          rw [List.drop_of_length_le (by omega), List.nil_append] at hc
          exact List.mem_takeWhile_imp hc

theorem matchChapterAt_of_decomp (m suf : List Char) (hm : isChapterMatch m)
    (hsuf : suf.takeWhile pyIsDecimalDigit = []) :
    matchChapterAt (m ++ suf) = some m := by
  obtain ⟨h1, h2, h3⟩ := hm
  have hlen : 7 ≤ m.length := by
    have hl := congrArg List.length h1
    simp [lowerChapter, List.length_take] at hl
    omega
  unfold matchChapterAt
  rw [List.take_append_of_le_length hlen]
  rw [if_pos h1]
  rw [List.drop_append_of_le_length hlen]
  rw [takeWhile_append_of_all _ _ h3, hsuf, List.append_nil]
  rw [if_neg h2]
  rw [List.take_append_drop]

theorem matchChapterAt_ne_none_of_decomp (m suf : List Char)
    (hm : isChapterMatch m) : matchChapterAt (m ++ suf) ≠ none := by
  obtain ⟨h1, h2, h3⟩ := hm
  have hlen : 7 ≤ m.length := by
    have hl := congrArg List.length h1
    simp [lowerChapter, List.length_take] at hl
    omega
  unfold matchChapterAt
  rw [List.take_append_of_le_length hlen]
  rw [if_pos h1]
  rw [List.drop_append_of_le_length hlen]
  rw [takeWhile_append_of_all _ _ h3]
  rw [if_neg (by simp [h2])]
  simp

theorem searchChapter_cons_none (c : Char) (cs : List Char)
    (h : matchChapterAt (c :: cs) = none) :
    searchChapter (c :: cs) = searchChapter cs := by
  conv_lhs => rw [searchChapter]
  rw [h]

theorem searchChapter_append (pre l : List Char)
    (h : ∀ i, i < pre.length → matchChapterAt ((pre ++ l).drop i) = none) :
    searchChapter (pre ++ l) = searchChapter l := by
  induction pre with
  | nil => rfl
  | cons c cs ih =>
    rw [List.cons_append]
    rw [searchChapter_cons_none _ _ (by simpa using h 0 (by simp))]
    exact ih (fun i hi => by simpa using h (i + 1) (by simpa using Nat.succ_lt_succ hi))

theorem searchChapter_some_inv (l : List Char) (m : List Char)
    (h : searchChapter l = some m) :
    ∃ n, matchChapterAt (l.drop n) = some m := by
  induction l with
  | nil => simp [searchChapter] at h
  | cons c cs ih =>
    unfold searchChapter at h
    cases hm : matchChapterAt (c :: cs) with
    | some m2 =>
      rw [hm] at h
      refine ⟨0, ?_⟩
      rw [List.drop_zero, hm]
      exact h
    | none =>
      rw [hm] at h
      obtain ⟨n, hn⟩ := ih h
      exact ⟨n + 1, by simpa using hn⟩

/-- C5: chapter resolution — the resolved identifier is the first (leftmost,
with maximal digit run) substring of the path matching `chapter` plus digits
case-insensitively, kept in its original case; with no such substring it is
empty. -/
theorem chapter_resolution_spec :
    (∀ (p : String) (pre m suf : List Char),
      p.data = pre ++ (m ++ suf) →
      isChapterMatch m →
      (∀ pre2 m2 suf2, p.data = pre2 ++ (m2 ++ suf2) → isChapterMatch m2 →
        pre.length ≤ pre2.length) →
      suf.takeWhile pyIsDecimalDigit = [] →
      chapterFromPath p = String.mk m) ∧
    (∀ p : String,
      (∀ pre m suf, p.data = pre ++ (m ++ suf) → ¬ isChapterMatch m) →
      chapterFromPath p = "") := by
  constructor
  · intro p pre m suf hdec hm hfirst hgreedy
    unfold chapterFromPath
    rw [show (replaceBackslash p).data = p.data.map replSlash from rfl,
      searchChapter_map_replSlash]
    have hnone : ∀ i, i < pre.length →
        matchChapterAt ((pre ++ (m ++ suf)).drop i) = none := by
      intro i hi
      cases hmi : matchChapterAt ((pre ++ (m ++ suf)).drop i) with
      | none => rfl
      | some m2 =>
        exfalso
        obtain ⟨⟨s2, hs2⟩, hcm2⟩ := matchChapterAt_some _ _ hmi
        have hdecomp : p.data = (pre ++ (m ++ suf)).take i ++ (m2 ++ s2) := by
          rw [hdec]
          conv_lhs => rw [← List.take_append_drop i (pre ++ (m ++ suf))]
          rw [hs2]
        have hle := hfirst _ _ _ hdecomp hcm2
        have hti : ((pre ++ (m ++ suf)).take i).length = i := by
          rw [List.length_take]
          have : i ≤ (pre ++ (m ++ suf)).length := by
            simp only [List.length_append]
            omega
          omega
        rw [hti] at hle
        omega
    rw [hdec, searchChapter_append _ _ hnone]
    have hmatch := matchChapterAt_of_decomp m suf hm hgreedy
    cases m with
    | nil => exact absurd hm.1 (by decide)
    | cons c ms =>
      have hsc : searchChapter ((c :: ms) ++ suf) = some (c :: ms) := by
        rw [List.cons_append]
        unfold searchChapter
        rw [show matchChapterAt (c :: (ms ++ suf)) = some (c :: ms) from hmatch]
      rw [hsc]
  · intro p hno
    unfold chapterFromPath
    rw [show (replaceBackslash p).data = p.data.map replSlash from rfl,
      searchChapter_map_replSlash]
    cases hs : searchChapter p.data with
    | none => rfl
    | some m =>
      exfalso
      obtain ⟨n, hn⟩ := searchChapter_some_inv _ _ hs
      obtain ⟨⟨suf, hsuf⟩, hcm⟩ := matchChapterAt_some _ _ hn
      refine hno (p.data.take n) m suf ?_ hcm
      conv_lhs => rw [← List.take_append_drop n p.data]
      rw [hsuf]

theorem isChapterMatch_of_scan (l : List Char) (n : Nat)
    (h : ∀ i, i < n → matchChapterAt (l.drop i) = none) :
    ∀ pre m suf, l = pre ++ (m ++ suf) → isChapterMatch m → n ≤ pre.length := by
  intro pre m suf hdec hm
  by_contra hlt
  push_neg at hlt
  have hnone := h pre.length hlt
  have hdrop : l.drop pre.length = m ++ suf := by
    rw [hdec, List.drop_left]
  rw [hdrop] at hnone
  exact matchChapterAt_ne_none_of_decomp m suf hm hnone

theorem no_chapter_of_scan (l : List Char)
    (h : ∀ i, i < l.length → matchChapterAt (l.drop i) = none) :
    ∀ pre m suf, l = pre ++ (m ++ suf) → ¬ isChapterMatch m := by
  intro pre m suf hdec hm
  have hle := isChapterMatch_of_scan l l.length h pre m suf hdec hm
  have hne : m ≠ [] := by
    intro e
    rw [e] at hm
    exact absurd hm.1 (by decide)
  have hm1 : 0 < m.length := List.length_pos.mpr hne
  have hlen := congrArg List.length hdec
  simp only [List.length_append] at hlen
  omega

theorem chapter_resolution_spec_witness :
    chapterFromPath "9th_class/biology/Chapter12/short" = "Chapter12" ∧
    chapterFromPath "x/chapter٣" = "chapter٣" ∧
    chapterFromPath "9th_class/biology/sec" = "" := by
  refine ⟨?_, ?_, ?_⟩
  · have h := chapter_resolution_spec.1 "9th_class/biology/Chapter12/short"
      ("9th_class/biology/".data) ("Chapter12".data) ("/short".data)
      (by decide) (by decide)
      (isChapterMatch_of_scan ("9th_class/biology/Chapter12/short".data) 18
        (by decide))
      (by decide)
    exact h.trans (by decide)
  · have h := chapter_resolution_spec.1 "x/chapter٣"
      ("x/".data) ("chapter٣".data) []
      (by decide) (by decide)
      (isChapterMatch_of_scan ("x/chapter٣".data) 2 (by decide))
      (by decide)
    exact h.trans (by decide)
  · exact chapter_resolution_spec.2 "9th_class/biology/sec"
      (no_chapter_of_scan ("9th_class/biology/sec".data) (by decide))
